import Mathlib

/-!
Verification of the planning and parsing engine of `sql-migrate`.

The development shallowly embeds the two pure components of the repository:

* `sqlparse/sqlparse.go` — the migration-document parser (`ParseMigration`
  and its helpers `endsWithSemicolon`, `parseCommand`, `updateState`).
  A document is modelled as the list of lines produced by the line scanner,
  and the scanner loop of `ParseMigration` becomes explicit state passing
  over a `LoopState`.
* `migrator.go` — the planner (`filter` and the planning loop of
  `planMigration`).  The database bookkeeping is out of scope; the planner
  is modelled as a pure function of the catalog, the watermark
  (`lastApplied`, `0` for "none") and the direction.

Go standard-library string helpers used by the source (`strings.HasPrefix`,
`strings.TrimSpace`, `strings.Fields`/`bufio.ScanWords`, `bufio.ScanLines`)
are modelled first, over `String.data` character lists.
-/

/- ### Go string helpers -/

/-- Go `unicode.IsSpace`: the white-space runes recognised by
`strings.Fields`, `bufio.ScanWords` and `strings.TrimSpace`. -/
def isGoSpace (c : Char) : Bool :=
  c = ' ' || c = '\t' || c = '\n' || c = Char.ofNat 11 || c = Char.ofNat 12 ||
  c = '\r' || c = Char.ofNat 0x85 || c = Char.ofNat 0xA0 || c = Char.ofNat 0x1680 ||
  (Char.ofNat 0x2000 ≤ c && c ≤ Char.ofNat 0x200A) ||
  c = Char.ofNat 0x2028 || c = Char.ofNat 0x2029 ||
  c = Char.ofNat 0x202F || c = Char.ofNat 0x205F || c = Char.ofNat 0x3000

/-- Go `strings.HasPrefix`. -/
def hasPref (s pre : String) : Bool := pre.data.isPrefixOf s.data

/-- Go `strings.HasSuffix`. -/
def hasSuff (s suf : String) : Bool := suf.data.isSuffixOf s.data

/-- Go `strings.TrimSpace`. -/
def goTrimSpace (s : String) : String :=
  String.mk (((s.data.dropWhile isGoSpace).reverse.dropWhile isGoSpace).reverse)

/-- Splitting a character stream into maximal white-space-free words;
`acc` holds the (reversed) word being accumulated. -/
def wordsAux : List Char → List Char → List String
  | [], acc => if acc.isEmpty then [] else [String.mk acc.reverse]
  | c :: cs, acc =>
    if isGoSpace c then
      if acc.isEmpty then wordsAux cs [] else String.mk acc.reverse :: wordsAux cs []
    else wordsAux cs (c :: acc)

/-- Go `strings.Fields`, also the word sequence produced by a
`bufio.Scanner` split with `bufio.ScanWords`. -/
def goFields (s : String) : List String := wordsAux s.data []

/-- Drop one trailing carriage return, as Go's `dropCR` in `bufio.ScanLines`. -/
def dropCR (cs : List Char) : List Char :=
  match cs.getLast? with
  | some c => if c = '\r' then cs.dropLast else cs
  | none => cs

/-- Splitting a character stream into lines the way `bufio.ScanLines` does:
a token per newline, a final token for a non-empty remainder, one trailing
`'\r'` stripped from each token. -/
def scanLinesAux : List Char → List Char → List String
  | [], acc => if acc.isEmpty then [] else [String.mk (dropCR acc.reverse)]
  | c :: cs, acc =>
    if c = '\n' then String.mk (dropCR acc.reverse) :: scanLinesAux cs []
    else scanLinesAux cs (c :: acc)

/-- The list of lines a `bufio.Scanner` with `bufio.ScanLines` yields on `s`. -/
def scanLines (s : String) : List String := scanLinesAux s.data []

/- ### The document parser (src/sqlparse/sqlparse.go) -/

/-- `sqlCmdPrefix` (src/sqlparse/sqlparse.go:14). -/
def sqlCmdPrefix : String := "-- +migrate "

/-- The parser's error outcomes, one constructor per distinct `errors.New` /
`errNoTerminator` site in src/sqlparse/sqlparse.go.  `noTerminator` covers
both message variants of `errNoTerminator` (they differ only in wording,
depending on whether a line separator is configured). -/
inductive ParseError where
  | notSqlMigrateCommand
  | incompleteCommand
  | noTerminator
  | unterminatedStatementBlock
  | noDirection
deriving DecidableEq, Repr

/-- `migrateCommand` (src/sqlparse/sqlparse.go:68-71). -/
structure migrateCommand where
  command : String
  options : List String
deriving DecidableEq, Repr

/-- `parseCommand` (src/sqlparse/sqlparse.go:83-100). -/
def parseCommand (line : String) : Except ParseError migrateCommand :=
  if hasPref line sqlCmdPrefix then
    match goFields (String.mk (line.data.drop sqlCmdPrefix.data.length)) with
    | [] => .error .incompleteCommand
    | c :: opts => .ok ⟨c, opts⟩
  else .error .notSqlMigrateCommand

/-- `endsWithSemicolon`'s scan (src/sqlparse/sqlparse.go:49-55): the value of
`prev` after walking the words, stopping at the first word that starts with
`"--"`. -/
def lastWordBeforeComment : List String → String → String
  | [], prev => prev
  | w :: ws, prev => if hasPref w "--" then prev else lastWordBeforeComment ws w

/-- `endsWithSemicolon` (src/sqlparse/sqlparse.go:43-58). -/
def endsWithSemicolon (line : String) : Bool :=
  hasSuff (lastWordBeforeComment (goFields line) "") ";"

/-- `migrationDirection` (src/sqlparse/sqlparse.go:60-66). -/
inductive migrationDirection where
  | directionNone
  | directionUp
  | directionDown
deriving DecidableEq, Repr

open migrationDirection

/-- `migrationState` (src/sqlparse/sqlparse.go:102-106). -/
structure migrationState where
  statementEnded : Bool
  ignoreSemicolons : Bool
  direction : migrationDirection
deriving DecidableEq, Repr

/-- `updateState` (src/sqlparse/sqlparse.go:108-144). -/
def updateState (line : String) (buf : String) (currentState : migrationState) :
    Except ParseError migrationState :=
  if hasPref line sqlCmdPrefix then
    match parseCommand line with
    | .error e => .error e
    | .ok cmd =>
      if cmd.command = "Up" then
        if 0 < (goTrimSpace buf).length then .error .noTerminator
        else .ok { currentState with direction := directionUp }
      else if cmd.command = "Down" then
        if 0 < (goTrimSpace buf).length then .error .noTerminator
        else .ok { currentState with direction := directionDown }
      else if cmd.command = "StatementBegin" then
        if currentState.direction ≠ directionNone then
          .ok { currentState with ignoreSemicolons := true }
        else .ok currentState
      else if cmd.command = "StatementEnd" then
        if currentState.direction ≠ directionNone then
          .ok { currentState with statementEnded := currentState.ignoreSemicolons,
                                  ignoreSemicolons := false }
        else .ok currentState
      else .ok currentState
  else .ok currentState

/-- `ParsedMigration` (src/sqlparse/sqlparse.go:17-20). -/
structure ParsedMigration where
  upStatements : List String
  downStatements : List String
deriving DecidableEq, Repr

/-- The mutable state of the scanner loop of `ParseMigration`
(src/sqlparse/sqlparse.go:156-166): the result so far, the accumulation
buffer, and the `migrationState`. -/
structure LoopState where
  p : ParsedMigration
  buf : String
  st : migrationState
deriving DecidableEq, Repr

/-- The loop state before the first line. -/
def initLoop : LoopState := ⟨⟨[], []⟩, "", ⟨false, false, directionNone⟩⟩

/-- The `isLineSeparator` test (src/sqlparse/sqlparse.go:184), with the
line separator passed explicitly instead of read from the package-level
`LineSeparator`. -/
def isLineSepB (sep : String) (st : migrationState) (line : String) : Bool :=
  !st.ignoreSemicolons && sep.length != 0 && line == sep

/-- The accumulation buffer after the conditional append of the current line
(src/sqlparse/sqlparse.go:186-190): the line plus a newline goes into the
buffer unless it is the line separator or starts with `-- +`. -/
def bufAfter (sep : String) (st : migrationState) (ls : LoopState) (line : String) :
    String :=
  if !isLineSepB sep st line && !hasPref line "-- +" then ls.buf ++ line ++ "\n"
  else ls.buf

/-- One iteration of the scanner loop of `ParseMigration`
(src/sqlparse/sqlparse.go:168-210).  The `direction ≠ directionNone` guard
makes the Go `default: panic` branch of the flush switch unreachable, so
the flush has only the `directionUp` and `directionDown` cases. -/
def processLine (sep : String) (ls : LoopState) (line : String) :
    Except ParseError LoopState :=
  if hasPref line "-- " && !hasPref line "-- +" then .ok ls
  else
    match updateState line ls.buf ls.st with
    | .error e => .error e
    | .ok st =>
      if st.direction = directionNone then .ok { ls with st := st }
      else
        if (!st.ignoreSemicolons && (endsWithSemicolon line || isLineSepB sep st line))
            || st.statementEnded then
          if st.direction = directionUp then
            .ok ⟨⟨ls.p.upStatements ++ [bufAfter sep st ls line], ls.p.downStatements⟩,
                 "", { st with statementEnded := false }⟩
          else
            .ok ⟨⟨ls.p.upStatements, ls.p.downStatements ++ [bufAfter sep st ls line]⟩,
                 "", { st with statementEnded := false }⟩
        else .ok ⟨ls.p, bufAfter sep st ls line, st⟩

/-- The scanner loop of `ParseMigration` over the remaining lines, stopping
at the first error as the Go loop returns early. -/
def runLines (sep : String) : LoopState → List String → Except ParseError LoopState
  | ls, [] => .ok ls
  | ls, line :: rest =>
    match processLine sep ls line with
    | .error e => .error e
    | .ok ls' => runLines sep ls' rest

/-- `ParseMigration` (src/sqlparse/sqlparse.go:155-234) on an
already-line-split document, with the `LineSeparator` configuration passed
as `sep` (the Go default is `""`). -/
def ParseMigration (sep : String) (lines : List String) :
    Except ParseError ParsedMigration :=
  match runLines sep initLoop lines with
  | .error e => .error e
  | .ok ls =>
    if ls.st.ignoreSemicolons then .error .unterminatedStatementBlock
    else if ls.st.direction = directionNone then .error .noDirection
    else if 0 < (goTrimSpace ls.buf).length ∧ ¬ (hasPref ls.buf "-- +" = true) then
      .error .noTerminator
    else .ok ls.p

/- ### Derived notions used in lemma and claim statements -/

/-- The buffer contents contributed by appending each line of `ls` followed
by a newline (src/sqlparse/sqlparse.go:187 writes `line + "\n"`). -/
def joinNL (ls : List String) : String := ls.foldr (fun l acc => l ++ "\n" ++ acc) ""

/-- Appending one flushed statement to the list of the given direction
(the `switch state.direction` of src/sqlparse/sqlparse.go:197-206). -/
def appendStmt (d : migrationDirection) (p : ParsedMigration) (s : String) :
    ParsedMigration :=
  match d with
  | directionUp => ⟨p.upStatements ++ [s], p.downStatements⟩
  | directionDown => ⟨p.upStatements, p.downStatements ++ [s]⟩
  | directionNone => p

/-- The statement list of the given direction. -/
def dirStatements (d : migrationDirection) (p : ParsedMigration) : List String :=
  match d with
  | directionUp => p.upStatements
  | directionDown => p.downStatements
  | directionNone => []

/-- A line free of newline and carriage-return characters, as is every
token the line scanner produces. -/
def lineClean (l : String) : Bool :=
  decide (Not (Membership.mem l.data '\n')) && decide (Not (Membership.mem l.data '\r'))

/-- A buffer or statement line: not a skipped comment line, and clean. -/
def cleanNonComment (l : String) : Bool := !hasPref l "-- " && lineClean l

/-- The statements and buffers the parser builds: a join of appended lines,
each of which survived the comment filter. -/
def linesOkStr (s : String) : Prop :=
  ∃ bls, s = joinNL bls ∧ ∀ l ∈ bls, cleanNonComment l = true

/-- Whether a line is a `StatementBegin` directive. -/
def isStatementBeginLine (l : String) : Bool :=
  match parseCommand l with
  | .ok cmd => cmd.command == "StatementBegin"
  | .error _ => false

/-- Plain concatenation of a statement list (the statements of a parse each
end in `";\n"` or are explicitly terminated, so their terminators act as
the separators when the list is concatenated for re-parsing). -/
def strJoin (ls : List String) : String := ls.foldr (fun a b => a ++ b) ""

/-- A well-formed statement body at line level: at least one line, all
clean non-comment lines, no line but the last passing the semicolon test,
the last passing it. -/
def wfLines (bls : List String) : Prop :=
  ∃ init2 lst, bls = init2 ++ [lst] ∧
    (∀ l ∈ bls, cleanNonComment l = true) ∧
    (∀ l ∈ init2, endsWithSemicolon l = false) ∧
    endsWithSemicolon lst = true

/-- A well-formed semicolon-terminated statement, as flushed by the parser
outside statement blocks. -/
def wfStmt (s : String) : Prop := ∃ bls, s = joinNL bls ∧ wfLines bls

/-- A well-formed pending buffer: clean non-comment lines, none passing the
semicolon test yet. -/
def wfBuf (s : String) : Prop :=
  ∃ bls, s = joinNL bls ∧ (∀ l ∈ bls, cleanNonComment l = true) ∧
    ∀ l ∈ bls, endsWithSemicolon l = false

/-- Appending several flushed statements to the list of the given
direction. -/
def appendStmts (d : migrationDirection) (p : ParsedMigration) (L : List String) :
    ParsedMigration :=
  match d with
  | directionUp => ⟨p.upStatements ++ L, p.downStatements⟩
  | directionDown => ⟨p.upStatements, p.downStatements ++ L⟩
  | directionNone => p

/- ### The planner (src/migrator.go) -/

/-- `Migration` (finder file of the repository, used by src/migrator.go). -/
structure Migration where
  id : Int
  fileName : String
  up : List String
  down : List String
deriving DecidableEq, Repr

/-- `MigrationDirection` (src/migrator.go:20-25). -/
inductive MigrationDirection where
  | Up
  | Down
deriving DecidableEq, Repr

/-- `PlannedMigration`: the migration together with the statement list
(`Queries`) chosen for the direction. -/
structure PlannedMigration where
  migration : Migration
  queries : List String
deriving DecidableEq, Repr

/-- The final value of `index` after the scan loop of `filter`
(src/migrator.go:221-228), assuming `current > 0` so the loop runs:
`index` starts at `-1` and is incremented before each comparison, so the
loop ends at the first match or, when no element matches, at
`len(migrations)-1`. -/
def scanIdx : List Migration → Int → Int
  | [], _ => -1
  | m :: rest, current =>
    if m.id = current then 0
    else if rest.isEmpty then 0
    else scanIdx rest current + 1

/-- `filter` (src/migrator.go:219-244).  For `Down` the Go code fills
`toApply[index-i] = migrations[i]`, i.e. the first `index+1` entries in
reverse order. -/
def filter (migs : List Migration) (current : Int) (direction : MigrationDirection) :
    List Migration :=
  let index : Int := if 0 < current then scanIdx migs current else -1
  match direction with
  | .Up => migs.drop (index + 1).toNat
  | .Down =>
    if index = -1 then []
    else (migs.take (index + 1).toNat).reverse

/-- The planning loop of `planMigration` (src/migrator.go:196-215), given
the watermark `lastApplied` (the `Id` of the last applied record, `0` when
nothing was applied, as `record` is the zero `Migration` then). -/
def planMigration (migs : List Migration) (lastApplied : Int)
    (dir : MigrationDirection) : List PlannedMigration :=
  (filter migs lastApplied dir).map fun v =>
    match dir with
    | .Up => ⟨v, v.up⟩
    | .Down => ⟨v, v.down⟩

/-- Building the planned step for one migration in the given direction
(the loop body of `planMigration`, src/migrator.go:200-213). -/
def plannedStep (dir : MigrationDirection) (v : Migration) : PlannedMigration :=
  match dir with
  | .Up => ⟨v, v.up⟩
  | .Down => ⟨v, v.down⟩

/- ### Concrete planner inputs used by the witnesses -/

/-- A four-entry catalog with version numbers `[1, 2, 3, 5]`. -/
def mig1 : Migration := ⟨1, "1_a.sql", ["u1;"], ["d1;"]⟩

def mig2 : Migration := ⟨2, "2_b.sql", ["u2;"], ["d2;"]⟩

def mig3 : Migration := ⟨3, "3_c.sql", ["u3;"], ["d3;"]⟩

def mig5 : Migration := ⟨5, "5_d.sql", ["u5;"], ["d5;"]⟩

def cat1235 : List Migration := [mig1, mig2, mig3, mig5]

/- ### Planner lemmas -/

/-- When no catalog entry carries `current`, the scan runs off the end:
the loop index finishes at `length - 1` (also `-1` for the empty catalog). -/
theorem scanIdx_of_not_mem (migs : List Migration) (current : Int)
    (h : ∀ m ∈ migs, m.id ≠ current) :
    scanIdx migs current = (migs.length : Int) - 1 := by
  induction migs with
  | nil => simp [scanIdx]
  | cons m rest ih =>
    have hm : m.id ≠ current := h m (by simp)
    rcases eq_or_ne rest [] with hr | hr
    · subst hr; simp [scanIdx, hm]
    · have hre : rest.isEmpty = false := by
        simpa [List.isEmpty_iff] using hr
      have := ih (fun x hx => h x (List.mem_cons_of_mem _ hx))
      simp only [scanIdx, if_neg hm, hre, Bool.false_eq_true, if_false, this,
        List.length_cons]
      push_cast
      omega

/-- When some catalog entry carries `current`, the scan stops at the first
match: the loop index finishes at `findIdx`. -/
theorem scanIdx_of_mem (migs : List Migration) (current : Int)
    (h : ∃ m ∈ migs, m.id = current) :
    scanIdx migs current = (migs.findIdx (fun m => m.id == current) : Int) := by
  induction migs with
  | nil => simp at h
  | cons m rest ih =>
    rcases eq_or_ne m.id current with hm | hm
    · simp [scanIdx, hm, List.findIdx_cons]
    · have hrest : ∃ x ∈ rest, x.id = current := by
        rcases h with ⟨x, hx, hxe⟩
        rcases List.mem_cons.mp hx with rfl | hx'
        · exact absurd hxe hm
        · exact ⟨x, hx', hxe⟩
      have hne : rest ≠ [] := by
        rintro rfl; simp at hrest
      have hre : rest.isEmpty = false := by
        simpa [List.isEmpty_iff] using hne
      have hbeq : (m.id == current) = false := by
        simpa using hm
      simp only [scanIdx, if_neg hm, hre, Bool.false_eq_true, if_false,
        List.findIdx_cons, hbeq, cond_false, ih hrest]
      push_cast
      ring

theorem planMigration_eq_map (migs : List Migration) (la : Int)
    (dir : MigrationDirection) :
    planMigration migs la dir = (filter migs la dir).map (plannedStep dir) := by
  cases dir <;> rfl

/- ### C1 -/

/-- C1, counterexample: for the version-sorted catalog `[1,2,3,5]` and the
positive absent watermark `4`, Up-planning does **not** return the whole
catalog (it is empty) and Down-planning is **not** empty (it is the whole
catalog reversed): the scan loop of `filter` leaves `index` at
`len(migrations)-1` when no entry matches, not at `-1`. -/
theorem C1_counterexample :
    ¬ (planMigration cat1235 4 .Up = cat1235.map (plannedStep .Up) ∧
       planMigration cat1235 4 .Down = []) := by
  decide

/-- C1, amended: for every catalog sorted ascending by version and every
`lastApplied` that is positive but present nowhere in the catalog, planning
Up yields the **empty** plan and planning Down yields the **entire catalog
in reverse order** (both empty when the catalog is empty). -/
theorem C1_amended_plan_of_absent (migs : List Migration) (la : Int)
    (_hsorted : migs.Pairwise (fun a b => a.id < b.id))
    (hpos : 0 < la) (habs : ∀ m ∈ migs, m.id ≠ la) :
    planMigration migs la .Up = [] ∧
    planMigration migs la .Down = migs.reverse.map (plannedStep .Down) := by
  have hidx : scanIdx migs la = (migs.length : Int) - 1 :=
    scanIdx_of_not_mem migs la habs
  constructor
  · rw [planMigration_eq_map]
    have : filter migs la .Up = [] := by
      simp only [filter, if_pos hpos, hidx]
      have hlen : (((migs.length : Int) - 1) + 1).toNat = migs.length := by omega
      rw [hlen, List.drop_length]
    rw [this, List.map_nil]
  · rw [planMigration_eq_map]
    rcases eq_or_ne migs [] with rfl | hne
    · simp [filter, scanIdx]
    · have hlen0 : migs.length ≠ 0 := by
        simpa [List.length_eq_zero] using hne
      have : filter migs la .Down = migs.reverse := by
        simp only [filter, if_pos hpos, hidx]
        have hne' : ((migs.length : Int) - 1) ≠ -1 := by omega
        rw [if_neg hne']
        have hlen : (((migs.length : Int) - 1) + 1).toNat = migs.length := by omega
        rw [hlen, List.take_length]
      rw [this, List.map_reverse]

/-- C1, witness for the amended theorem at catalog `[1,2,3,5]`,
`lastApplied = 4`. -/
theorem C1_amended_witness :
    planMigration cat1235 4 .Up = [] ∧
    planMigration cat1235 4 .Down = cat1235.reverse.map (plannedStep .Down) :=
  C1_amended_plan_of_absent cat1235 4 (by decide) (by decide) (by decide)

/- ### C2 -/

/-- C2: for every ascending version-sorted catalog, planning Up returns
exactly the catalog entries strictly after the position of `lastApplied` —
all entries when `lastApplied` is none (`0`) — in catalog order, each step
carrying that migration's up-statement list. -/
theorem C2_up_plan (migs : List Migration) (la : Int)
    (_hsorted : migs.Pairwise (fun a b => a.id < b.id))
    (hla : la = 0 ∨ (0 < la ∧ ∃ m ∈ migs, m.id = la)) :
    planMigration migs la .Up =
      (migs.drop
        (if la = 0 then 0 else migs.findIdx (fun m => m.id == la) + 1)).map
        (plannedStep .Up) := by
  rw [planMigration_eq_map]
  rcases hla with rfl | ⟨hpos, hmem⟩
  · simp [filter]
  · have hne : la ≠ 0 := by omega
    have hidx := scanIdx_of_mem migs la hmem
    simp only [filter, if_pos hpos, hidx, if_neg hne]
    have : (((migs.findIdx (fun m => m.id == la) : Int)) + 1).toNat =
        migs.findIdx (fun m => m.id == la) + 1 := by omega
    rw [this]

/-- C2, witness: catalog `[1,2,3,5]`, `lastApplied = 2`, direction Up gives
the plan `[3, 5]` in that order, each step carrying the up-statements. -/
theorem C2_up_plan_witness :
    planMigration cat1235 2 .Up = [⟨mig3, mig3.up⟩, ⟨mig5, mig5.up⟩] := by
  rw [C2_up_plan cat1235 2 (by decide) (Or.inr ⟨by decide, by decide⟩)]
  decide

/- ### C3 -/

/-- C3: for every ascending version-sorted catalog, planning Down returns
exactly the catalog entries at or before the position of `lastApplied` in
descending (reverse-catalog) order, each step carrying that migration's
down-statement list, and the empty plan when `lastApplied` is none (`0`). -/
theorem C3_down_plan (migs : List Migration) (la : Int)
    (_hsorted : migs.Pairwise (fun a b => a.id < b.id))
    (hla : la = 0 ∨ (0 < la ∧ ∃ m ∈ migs, m.id = la)) :
    planMigration migs la .Down =
      ((migs.take
        (if la = 0 then 0 else migs.findIdx (fun m => m.id == la) + 1)).reverse).map
        (plannedStep .Down) := by
  rw [planMigration_eq_map]
  rcases hla with rfl | ⟨hpos, hmem⟩
  · simp [filter]
  · have hne : la ≠ 0 := by omega
    have hidx := scanIdx_of_mem migs la hmem
    simp only [filter, if_pos hpos, hidx, if_neg hne]
    have hne' : ((migs.findIdx (fun m => m.id == la) : Int)) + 1 ≠ 0 := by omega
    have hne'' : ((migs.findIdx (fun m => m.id == la) : Int)) ≠ -1 := by omega
    rw [if_neg hne'']
    have : (((migs.findIdx (fun m => m.id == la) : Int)) + 1).toNat =
        migs.findIdx (fun m => m.id == la) + 1 := by omega
    rw [this]

/-- C3, witness: catalog `[1,2,3,5]` with `lastApplied = 5` gives the Down
plan `[5, 3, 2, 1]` carrying down-statements, and with `lastApplied`
none (`0`) the empty plan. -/
theorem C3_down_plan_witness :
    planMigration cat1235 5 .Down =
      [⟨mig5, mig5.down⟩, ⟨mig3, mig3.down⟩, ⟨mig2, mig2.down⟩, ⟨mig1, mig1.down⟩] ∧
    planMigration cat1235 0 .Down = [] := by
  constructor
  · rw [C3_down_plan cat1235 5 (by decide) (Or.inr ⟨by decide, by decide⟩)]
    decide
  · rw [C3_down_plan cat1235 0 (by decide) (Or.inl rfl)]
    decide

/- ### C9 -/

/-- C9: planning over an empty (nil) catalog returns the empty plan for
every watermark and either direction; being a total function of the list,
the model performs no out-of-range access and raises no error. -/
theorem C9_empty_catalog_plan (la : Int) (dir : MigrationDirection) :
    planMigration [] la dir = [] := by
  cases dir <;> simp [planMigration, filter]

/- ### Parser loop lemmas -/

/-- `hasPref` is transitive through an intermediate string. -/
theorem hasPref_trans {s p q : String} (h1 : hasPref s p = true)
    (h2 : hasPref p q = true) : hasPref s q = true := by
  simp only [hasPref, List.isPrefixOf_iff_prefix] at h1 h2 ⊢
  exact h2.trans h1

/-- A line that `parseCommand` accepts carries the `-- +migrate ` marker. -/
theorem parseCommand_ok_marker (line : String) (cmd : migrateCommand)
    (h : parseCommand line = .ok cmd) : hasPref line sqlCmdPrefix = true := by
  by_cases hp : hasPref line sqlCmdPrefix = true
  · exact hp
  · unfold parseCommand at h
    rw [if_neg hp] at h
    exact absurd h (by simp)

/-- An `Up`/`Down` directive reaching `updateState` over a buffer that is
non-empty after trimming returns the missing-terminator error
(src/sqlparse/sqlparse.go:119-130). -/
theorem updateState_dirCmd_error (line buf : String) (st : migrationState)
    (cmd : migrateCommand) (hc : parseCommand line = .ok cmd)
    (hud : cmd.command = "Up" ∨ cmd.command = "Down")
    (hbuf : 0 < (goTrimSpace buf).length) :
    updateState line buf st = .error .noTerminator := by
  have hp := parseCommand_ok_marker line cmd hc
  unfold updateState
  rw [if_pos hp, hc]
  rcases hud with h | h
  · simp only [h, if_pos, if_pos hbuf]
  · by_cases hup : cmd.command = "Up"
    · simp only [hup, if_pos, if_pos hbuf]
    · simp only [if_neg hup, h, if_pos, if_pos hbuf]
      rw [ite_self]

/-- A non-comment line on which `updateState` fails makes the loop iteration
fail with the same error. -/
theorem processLine_error (sep : String) (ls : LoopState) (line : String)
    (e : ParseError)
    (hskip : (hasPref line "-- " && !hasPref line "-- +") = false)
    (hupd : updateState line ls.buf ls.st = .error e) :
    processLine sep ls line = .error e := by
  unfold processLine
  rw [hskip, hupd]
  simp

/-- Splitting the loop at a list append: the loop over `l1 ++ l2` is the
loop over `l1` followed, on success, by the loop over `l2`. -/
theorem runLines_append (sep : String) (ls : LoopState) (l1 l2 : List String) :
    runLines sep ls (l1 ++ l2) =
      match runLines sep ls l1 with
      | .error e => .error e
      | .ok ls' => runLines sep ls' l2 := by
  induction l1 generalizing ls with
  | nil => simp [runLines]
  | cons a t ih =>
    rw [List.cons_append]
    simp only [runLines]
    cases processLine sep ls a with
    | error e => rfl
    | ok ls' => exact ih ls'

/- ### C5 -/

/-- C5: whenever an `Up` or `Down` directive line is reached while the
accumulation buffer is non-empty after trimming white space, the whole parse
returns the missing-terminator error (and hence no parsed result),
irrespective of the remaining lines. -/
theorem C5_direction_switch_mid_statement (sep : String) (pre post : List String)
    (dline : String) (ps : LoopState) (cmd : migrateCommand)
    (hpre : runLines sep initLoop pre = .ok ps)
    (hbuf : 0 < (goTrimSpace ps.buf).length)
    (hc : parseCommand dline = .ok cmd)
    (hud : cmd.command = "Up" ∨ cmd.command = "Down") :
    ParseMigration sep (pre ++ dline :: post) = .error .noTerminator := by
  have hupd := updateState_dirCmd_error dline ps.buf ps.st cmd hc hud hbuf
  have hp4 : hasPref dline "-- +" = true :=
    hasPref_trans (parseCommand_ok_marker dline cmd hc) (by decide)
  have hskip : (hasPref dline "-- " && !hasPref dline "-- +") = false := by
    simp [hp4]
  have hpl : processLine sep ps dline = .error .noTerminator :=
    processLine_error sep ps dline _ hskip hupd
  unfold ParseMigration
  rw [runLines_append, hpre]
  simp only [runLines, hpl]

/-- C5, witness: the document `Up; "work"; Down` switches direction over the
unterminated buffer `"work\n"` and fails with the missing-terminator error. -/
theorem C5_witness :
    ParseMigration "" (["-- +migrate Up", "work"] ++ "-- +migrate Down" :: []) =
      .error .noTerminator :=
  C5_direction_switch_mid_statement "" ["-- +migrate Up", "work"] []
    "-- +migrate Down" ⟨⟨[], []⟩, "work\n", ⟨false, false, directionUp⟩⟩
    ⟨"Down", []⟩ rfl (by decide) rfl (Or.inr rfl)

/- ### C6 -/

/-- C6: on a document whose scanner loop completes without error, the
end-of-input validation applies, in this order: an open statement block
first (the dangling-block error), then a never-set direction (the
no-sections error), then a buffer that is non-empty after trimming and is
not a trailing directive-comment remnant (the missing-terminator error);
otherwise the parsed result is returned. -/
theorem C6_end_validation (sep : String) (lines : List String) (ls : LoopState)
    (h : runLines sep initLoop lines = .ok ls) :
    ParseMigration sep lines =
      if ls.st.ignoreSemicolons then .error .unterminatedStatementBlock
      else if ls.st.direction = directionNone then .error .noDirection
      else if 0 < (goTrimSpace ls.buf).length ∧ ¬ (hasPref ls.buf "-- +" = true) then
        .error .noTerminator
      else .ok ls.p := by
  unfold ParseMigration
  rw [h]

/-- C6, witness: a document that ends with an open statement block *and* an
unterminated buffer reports the dangling-block error, showing check (1)
fires before check (3). -/
theorem C6_witness :
    ParseMigration "" ["-- +migrate Up", "-- +migrate StatementBegin", "A;"] =
      .error .unterminatedStatementBlock := by
  have h := C6_end_validation "" ["-- +migrate Up", "-- +migrate StatementBegin", "A;"]
    ⟨⟨[], []⟩, "A;\n", ⟨false, true, directionUp⟩⟩ rfl
  simpa using h

/- ### C7 -/

/-- The scan of `endsWithSemicolon` computes the last word before the first
`--`-opening word, i.e. the last element of the `takeWhile` of the words. -/
theorem lastWordBeforeComment_eq_takeWhile (ws : List String) (prev : String) :
    lastWordBeforeComment ws prev =
      ((ws.takeWhile fun w => !hasPref w "--").getLast?).getD prev := by
  induction ws generalizing prev with
  | nil => rfl
  | cons w t ih =>
    by_cases h : hasPref w "--" = true
    · simp [lastWordBeforeComment, h, List.takeWhile_cons]
    · have hb : hasPref w "--" = false := by
        simpa using h
      simp only [lastWordBeforeComment, if_neg h, List.takeWhile_cons, hb,
        Bool.not_false, if_pos]
      rw [ih w]
      rcases hl : ((t.takeWhile fun w => !hasPref w "--").getLast?) with _ | z
      · simp [List.getLast?_eq_none_iff.mp hl]
      · have : (t.takeWhile fun w => !hasPref w "--") ≠ [] := by
          rintro he; rw [he] at hl; exact absurd hl (by simp)
        rcases List.exists_cons_of_ne_nil this with ⟨y, ys, hys⟩
        rw [hys]
        rw [hys] at hl
        simp [List.getLast?_cons_cons, hl]

/-- C7: `endsWithSemicolon` scans the line's white-space-separated words
left to right, stops at the first word starting with `--`, and returns
`true` exactly when the last word examined before that point ends with a
semicolon; when no word was examined it returns `false`, since the initial
`prev` is the empty string. -/
theorem C7_semicolon_detection (line : String) :
    endsWithSemicolon line = true ↔
      ∃ w, ((goFields line).takeWhile fun w => !hasPref w "--").getLast? = some w ∧
        hasSuff w ";" = true := by
  unfold endsWithSemicolon
  rw [lastWordBeforeComment_eq_takeWhile]
  rcases hl : (((goFields line).takeWhile fun w => !hasPref w "--").getLast?) with _ | w
  · simp only [Option.getD_none]
    constructor
    · intro hf
      exact absurd hf (by decide)
    · rintro ⟨w, hw, _⟩
      exact absurd hw (by simp)
  · simp only [Option.getD_some]
    constructor
    · intro hs
      exact ⟨w, rfl, hs⟩
    · rintro ⟨w', hw', hs⟩
      rw [Option.some.injEq] at hw'
      rw [hw']
      exact hs

/- ### String glue lemmas -/

theorem str_append_empty (s : String) : s ++ "" = s := by
  cases s with
  | mk l =>
    show String.mk (l ++ []) = String.mk l
    rw [List.append_nil]

theorem str_empty_append (s : String) : "" ++ s = s := by
  cases s with
  | mk l =>
    show String.mk ([] ++ l) = String.mk l
    rw [List.nil_append]

theorem str_append_assoc (a b c : String) : a ++ b ++ c = a ++ (b ++ c) := by
  cases a with
  | mk x =>
    cases b with
    | mk y =>
      cases c with
      | mk z =>
        show String.mk (x ++ y ++ z) = String.mk (x ++ (y ++ z))
        rw [List.append_assoc]

theorem joinNL_cons (l : String) (t : List String) :
    joinNL (l :: t) = l ++ "\n" ++ joinNL t := rfl

theorem joinNL_nil : joinNL [] = "" := rfl

theorem joinNL_append (a b : List String) :
    joinNL (a ++ b) = joinNL a ++ joinNL b := by
  induction a with
  | nil => rw [List.nil_append, joinNL_nil, str_empty_append]
  | cons x t ih =>
    rw [List.cons_append, joinNL_cons, joinNL_cons, ih]
    simp only [str_append_assoc]

/- ### Statement-block lemmas -/

/-- A line carrying the `-- +migrate ` marker starts with `-- `. -/
theorem dashdash_of_sqlCmd {line : String} (h : hasPref line sqlCmdPrefix = true) :
    hasPref line "-- " = true :=
  hasPref_trans h (by decide)

/-- A line starting with `-- +` starts with `-- `. -/
theorem dashdash_of_dashdashplus {line : String} (h : hasPref line "-- +" = true) :
    hasPref line "-- " = true :=
  hasPref_trans h (by decide)

/-- Inside an open statement block, a line that does not start with `-- `
is appended verbatim to the buffer and triggers no flush. -/
theorem processLine_inBlock (sep : String) (p : ParsedMigration) (buf : String)
    (d : migrationDirection) (hd : d ≠ directionNone) (line : String)
    (hl : hasPref line "-- " = false) :
    processLine sep ⟨p, buf, ⟨false, true, d⟩⟩ line =
      .ok ⟨p, buf ++ line ++ "\n", ⟨false, true, d⟩⟩ := by
  have hsql : hasPref line sqlCmdPrefix = false := by
    rcases hb : hasPref line sqlCmdPrefix with _ | _
    · rfl
    · exact absurd (dashdash_of_sqlCmd hb) (by simp [hl])
  have hplus : hasPref line "-- +" = false := by
    rcases hb : hasPref line "-- +" with _ | _
    · rfl
    · exact absurd (dashdash_of_dashdashplus hb) (by simp [hl])
  simp [processLine, updateState, bufAfter, isLineSepB, hl, hsql, hplus, hd]

/-- The `StatementBegin` directive, reached with a set direction, opens the
block: it turns `ignoreSemicolons` on, adds nothing to the buffer and
flushes nothing. -/
theorem processLine_stmtBegin (sep : String) (p : ParsedMigration)
    (d : migrationDirection) (hd : d ≠ directionNone) :
    processLine sep ⟨p, "", ⟨false, false, d⟩⟩ "-- +migrate StatementBegin" =
      .ok ⟨p, "", ⟨false, true, d⟩⟩ := by
  cases d with
  | directionNone => exact absurd rfl hd
  | directionUp => rfl
  | directionDown => rfl

/-- The `StatementEnd` directive closes the block and unconditionally
flushes the buffer as one statement of the active direction. -/
theorem processLine_stmtEnd (sep : String) (p : ParsedMigration) (buf : String)
    (d : migrationDirection) (hd : d ≠ directionNone) :
    processLine sep ⟨p, buf, ⟨false, true, d⟩⟩ "-- +migrate StatementEnd" =
      .ok ⟨appendStmt d p buf, "", ⟨false, false, d⟩⟩ := by
  have e2 : hasPref "-- +migrate StatementEnd" "-- +" = true := by decide
  have e3 : hasPref "-- +migrate StatementEnd" sqlCmdPrefix = true := by decide
  have e4 : parseCommand "-- +migrate StatementEnd" = .ok ⟨"StatementEnd", []⟩ := rfl
  have e5 : endsWithSemicolon "-- +migrate StatementEnd" = false := by decide
  cases d with
  | directionNone => exact absurd rfl hd
  | directionUp =>
    simp [processLine, updateState, bufAfter, isLineSepB, appendStmt, e2, e3, e4, e5]
  | directionDown =>
    simp [processLine, updateState, bufAfter, isLineSepB, appendStmt, e2, e3, e4, e5]

/-- Folding the loop over the body of an open statement block: every line
is appended, none flushes. -/
theorem runLines_blockBody (sep : String) (body : List String) (p : ParsedMigration)
    (buf : String) (d : migrationDirection) (hd : d ≠ directionNone)
    (hbody : ∀ l ∈ body, hasPref l "-- " = false) :
    runLines sep ⟨p, buf, ⟨false, true, d⟩⟩ body =
      .ok ⟨p, buf ++ joinNL body, ⟨false, true, d⟩⟩ := by
  induction body generalizing buf with
  | nil =>
    rw [joinNL_nil, str_append_empty]
    rfl
  | cons x t ih =>
    have hx : hasPref x "-- " = false := hbody x (by simp)
    simp only [runLines, processLine_inBlock sep p buf d hd x hx]
    rw [ih (buf ++ x ++ "\n") (fun l hl => hbody l (by simp [hl]))]
    rw [joinNL_cons]
    simp only [str_append_assoc]

/-- A whole `StatementBegin` … `StatementEnd` block, entered with an empty
buffer and a set direction, adds exactly one statement — the block body
joined verbatim, newlines included — to the active direction's list, and
returns to the pre-block state. -/
theorem runLines_stmtBlock (sep : String) (body : List String) (p : ParsedMigration)
    (d : migrationDirection) (hd : d ≠ directionNone)
    (hbody : ∀ l ∈ body, hasPref l "-- " = false) :
    runLines sep ⟨p, "", ⟨false, false, d⟩⟩
      ("-- +migrate StatementBegin" :: (body ++ ["-- +migrate StatementEnd"])) =
      .ok ⟨appendStmt d p (joinNL body), "", ⟨false, false, d⟩⟩ := by
  simp only [runLines, processLine_stmtBegin sep p d hd]
  rw [runLines_append, runLines_blockBody sep body p "" d hd hbody]
  rw [str_empty_append]
  simp only [runLines, processLine_stmtEnd sep p (joinNL body) d hd]

/- ### Monotonicity of the statement lists -/

/-- One loop iteration only ever appends to the statement lists. -/
theorem processLine_appends (sep : String) (ls : LoopState) (line : String)
    (ls' : LoopState) (h : processLine sep ls line = .ok ls') :
    ∃ us ds, ls'.p.upStatements = ls.p.upStatements ++ us ∧
      ls'.p.downStatements = ls.p.downStatements ++ ds := by
  unfold processLine at h
  split at h
  · rw [Except.ok.injEq] at h
    subst h
    exact ⟨[], [], by simp, by simp⟩
  · split at h
    · exact absurd h (by simp)
    · split at h
      · rw [Except.ok.injEq] at h
        subst h
        exact ⟨[], [], by simp, by simp⟩
      · split at h
        · split at h
          · rw [Except.ok.injEq] at h
            subst h
            exact ⟨[_], [], rfl, by simp⟩
          · rw [Except.ok.injEq] at h
            subst h
            exact ⟨[], [_], by simp, rfl⟩
        · rw [Except.ok.injEq] at h
          subst h
          exact ⟨[], [], by simp, by simp⟩

/-- The loop only ever appends to the statement lists. -/
theorem runLines_appends (sep : String) (lines : List String) (ls ls' : LoopState)
    (h : runLines sep ls lines = .ok ls') :
    ∃ us ds, ls'.p.upStatements = ls.p.upStatements ++ us ∧
      ls'.p.downStatements = ls.p.downStatements ++ ds := by
  induction lines generalizing ls with
  | nil =>
    simp only [runLines, Except.ok.injEq] at h
    subst h
    exact ⟨[], [], by simp, by simp⟩
  | cons a t ih =>
    simp only [runLines] at h
    cases hp : processLine sep ls a with
    | error e =>
      rw [hp] at h
      exact absurd h (by simp)
    | ok mid =>
      rw [hp] at h
      obtain ⟨u1, d1, hu1, hd1⟩ := processLine_appends sep ls a mid hp
      obtain ⟨u2, d2, hu2, hd2⟩ := ih mid h
      exact ⟨u1 ++ u2, d1 ++ d2, by rw [hu2, hu1, List.append_assoc],
        by rw [hd2, hd1, List.append_assoc]⟩

/-- A successful parse is the final loop state's result, and the loop
succeeded. -/
theorem ParseMigration_ok_elim (sep : String) (lines : List String)
    (p : ParsedMigration) (h : ParseMigration sep lines = .ok p) :
    ∃ ls, runLines sep initLoop lines = .ok ls ∧ p = ls.p ∧
      ls.st.ignoreSemicolons = false ∧ ls.st.direction ≠ directionNone := by
  unfold ParseMigration at h
  split at h
  · exact absurd h (by simp)
  · rename_i ls heq
    split at h
    · exact absurd h (by simp)
    · rename_i hig
      split at h
      · exact absurd h (by simp)
      · rename_i hdir
        split at h
        · exact absurd h (by simp)
        · rw [Except.ok.injEq] at h
          subst h
          exact ⟨ls, heq, rfl, by simpa using hig, hdir⟩

/- ### C4 -/

/-- C4: in any successfully parsed document, a `StatementBegin` directive
reached with a set direction and an empty buffer, followed by body lines
(semicolons included, none starting with `-- `) and a `StatementEnd`
directive, contributes exactly one statement to the active direction's
list — the body joined verbatim, internal semicolons and newlines
included — at the next position of that list. -/
theorem C4_statement_block (sep : String) (pre body post : List String)
    (ps : LoopState) (parsed : ParsedMigration)
    (hpre : runLines sep initLoop pre = .ok ps)
    (hbuf : ps.buf = "")
    (hse : ps.st.statementEnded = false)
    (hig : ps.st.ignoreSemicolons = false)
    (hdir : ps.st.direction ≠ directionNone)
    (hbody : ∀ l ∈ body, hasPref l "-- " = false)
    (hok : ParseMigration sep
        (pre ++ ("-- +migrate StatementBegin" ::
          (body ++ ["-- +migrate StatementEnd"])) ++ post) = .ok parsed) :
    ∃ rest, dirStatements ps.st.direction parsed =
      dirStatements ps.st.direction ps.p ++ joinNL body :: rest := by
  obtain ⟨pp, pbuf, pse, pig, pd⟩ := ps
  simp only at hbuf hse hig hdir hbody hpre ⊢
  subst hbuf
  subst hse
  subst hig
  obtain ⟨lsEnd, hrun, hparsed, -, -⟩ := ParseMigration_ok_elim _ _ _ hok
  have hblock : runLines sep initLoop
      (pre ++ ("-- +migrate StatementBegin" ::
        (body ++ ["-- +migrate StatementEnd"]))) =
      .ok ⟨appendStmt pd pp (joinNL body), "", ⟨false, false, pd⟩⟩ := by
    rw [runLines_append, hpre]
    exact runLines_stmtBlock sep body pp pd hdir hbody
  rw [runLines_append, hblock] at hrun
  obtain ⟨us, ds, hu, hd2⟩ := runLines_appends sep post _ lsEnd hrun
  subst hparsed
  cases pd with
  | directionNone => exact absurd rfl hdir
  | directionUp =>
    refine ⟨us, ?_⟩
    simp only [appendStmt] at hu
    simp only [dirStatements, hu, List.append_assoc, List.singleton_append]
  | directionDown =>
    refine ⟨ds, ?_⟩
    simp only [appendStmt] at hd2
    simp only [dirStatements, hd2, List.append_assoc, List.singleton_append]

/-- C4, witness: the block `Up; StatementBegin; "A;"; "B;"; StatementEnd`
yields the single up-statement `"A;\nB;\n"`, internal semicolons kept. -/
theorem C4_witness :
    ∃ rest, dirStatements directionUp ⟨["A;\nB;\n"], []⟩ =
      dirStatements directionUp ⟨[], []⟩ ++ joinNL ["A;", "B;"] :: rest :=
  C4_statement_block "" ["-- +migrate Up"] ["A;", "B;"] []
    ⟨⟨[], []⟩, "", ⟨false, false, directionUp⟩⟩ ⟨["A;\nB;\n"], []⟩
    rfl rfl rfl rfl (by decide) (by decide) rfl

/- ### Line-splitting round trip -/

theorem strMk_data (s : String) : String.mk s.data = s := rfl

theorem getLast?_mem_of_eq {α : Type} (l : List α) (c : α)
    (h : l.getLast? = some c) : c ∈ l := by
  induction l with
  | nil => exact absurd h (by simp)
  | cons a t ih =>
    cases t with
    | nil =>
      simp only [List.getLast?_singleton, Option.some.injEq] at h
      simp [h]
    | cons b t2 =>
      rw [List.getLast?_cons_cons] at h
      exact List.mem_cons_of_mem _ (ih h)

theorem dropCR_of_not_mem (cs : List Char) (h : ¬ '\r' ∈ cs) : dropCR cs = cs := by
  unfold dropCR
  cases hl : cs.getLast? with
  | none => rfl
  | some c =>
    have hc : c ≠ '\r' := fun he => h (he ▸ getLast?_mem_of_eq cs c hl)
    show (if c = '\r' then cs.dropLast else cs) = cs
    rw [if_neg hc]

theorem scanLinesAux_append_no_newline (xs : List Char) (rest acc : List Char)
    (h : ¬ '\n' ∈ xs) :
    scanLinesAux (xs ++ rest) acc = scanLinesAux rest (xs.reverse ++ acc) := by
  induction xs generalizing acc with
  | nil => simp
  | cons c t ih =>
    have hc : c ≠ '\n' := fun he => h (by simp [he])
    simp only [List.cons_append, scanLinesAux, if_neg hc, List.append_eq]
    rw [ih (c :: acc) (fun hm => h (List.mem_cons_of_mem _ hm))]
    simp

/-- Re-splitting the concatenation of clean lines, each closed by a
newline, recovers exactly those lines (the scanner emits no token for the
empty remainder after the final newline). -/
theorem scanLines_joinNL (ls : List String) (h : ∀ l ∈ ls, lineClean l = true) :
    scanLines (joinNL ls) = ls := by
  induction ls with
  | nil => rfl
  | cons x t ih =>
    have hx := h x (by simp)
    rw [lineClean, Bool.and_eq_true, decide_eq_true_eq, decide_eq_true_eq] at hx
    obtain ⟨hxn, hxr⟩ := hx
    have hdata : (joinNL (x :: t)).data = x.data ++ ('\n' :: (joinNL t).data) := by
      rw [joinNL_cons, String.data_append, String.data_append]
      simp
    have hstep : scanLines (joinNL (x :: t)) =
        scanLinesAux ('\n' :: (joinNL t).data) (x.data.reverse ++ []) := by
      unfold scanLines
      rw [hdata, scanLinesAux_append_no_newline x.data _ [] hxn]
    rw [hstep]
    simp only [scanLinesAux, if_pos]
    rw [List.append_nil, List.reverse_reverse, dropCR_of_not_mem x.data hxr,
      strMk_data]
    rw [show scanLinesAux (joinNL t).data [] = t from
      ih (fun l hl => h l (List.mem_cons_of_mem _ hl))]

/- ### C10 invariant -/

/-- The conditional append preserves the shape of the buffer: whatever goes
in is a clean non-comment line. -/
theorem bufAfter_linesOk (sep : String) (st : migrationState) (ls : LoopState)
    (line : String) (hc : lineClean line = true)
    (hskip : (hasPref line "-- " && !hasPref line "-- +") = false)
    (hbuf : linesOkStr ls.buf) : linesOkStr (bufAfter sep st ls line) := by
  unfold bufAfter
  split
  · rename_i hcond
    rw [Bool.and_eq_true] at hcond
    have hplus : hasPref line "-- +" = false := by
      have := hcond.2
      simpa using this
    have hdash : hasPref line "-- " = false := by
      rw [hplus] at hskip
      simpa using hskip
    obtain ⟨bls, hb, hall⟩ := hbuf
    refine ⟨bls ++ [line], ?_, ?_⟩
    · rw [joinNL_append, hb]
      simp only [joinNL_cons, joinNL_nil, str_append_assoc, str_append_empty]
    · intro l hl
      rcases List.mem_append.mp hl with hl' | hl'
      · exact hall l hl'
      · rw [List.mem_singleton.mp hl']
        rw [cleanNonComment, Bool.and_eq_true]
        exact ⟨by simp [hdash], hc⟩
  · exact hbuf

/-- One loop iteration preserves the buffer shape and produces only
statements of that shape. -/
theorem processLine_linesOk (sep : String) (ls ls' : LoopState) (line : String)
    (hc : lineClean line = true) (h : processLine sep ls line = .ok ls')
    (hbuf : linesOkStr ls.buf)
    (hstmts : ∀ s ∈ ls.p.upStatements ++ ls.p.downStatements, linesOkStr s) :
    linesOkStr ls'.buf ∧
      ∀ s ∈ ls'.p.upStatements ++ ls'.p.downStatements, linesOkStr s := by
  unfold processLine at h
  split at h
  · rw [Except.ok.injEq] at h
    subst h
    exact ⟨hbuf, hstmts⟩
  · rename_i hskip
    have hskip' : (hasPref line "-- " && !hasPref line "-- +") = false := by
      simpa using hskip
    split at h
    · exact absurd h (by simp)
    · rename_i st heq
      split at h
      · rw [Except.ok.injEq] at h
        subst h
        exact ⟨hbuf, hstmts⟩
      · have hba := bufAfter_linesOk sep st ls line hc hskip' hbuf
        split at h
        · split at h
          · rw [Except.ok.injEq] at h
            subst h
            refine ⟨⟨[], rfl, by simp⟩, ?_⟩
            intro s hs
            simp only at hs
            rcases List.mem_append.mp hs with hs' | hs'
            · rcases List.mem_append.mp hs' with h2 | h2
              · exact hstmts s (List.mem_append.mpr (Or.inl h2))
              · rw [List.mem_singleton.mp h2]
                exact hba
            · exact hstmts s (List.mem_append.mpr (Or.inr hs'))
          · rw [Except.ok.injEq] at h
            subst h
            refine ⟨⟨[], rfl, by simp⟩, ?_⟩
            intro s hs
            simp only at hs
            rcases List.mem_append.mp hs with hs' | hs'
            · exact hstmts s (List.mem_append.mpr (Or.inl hs'))
            · rcases List.mem_append.mp hs' with h2 | h2
              · exact hstmts s (List.mem_append.mpr (Or.inr h2))
              · rw [List.mem_singleton.mp h2]
                exact hba
        · rw [Except.ok.injEq] at h
          subst h
          exact ⟨hba, hstmts⟩

/-- The loop preserves the statement shape. -/
theorem runLines_linesOk (sep : String) (lines : List String) (ls ls' : LoopState)
    (hclean : ∀ l ∈ lines, lineClean l = true)
    (h : runLines sep ls lines = .ok ls')
    (hbuf : linesOkStr ls.buf)
    (hstmts : ∀ s ∈ ls.p.upStatements ++ ls.p.downStatements, linesOkStr s) :
    ∀ s ∈ ls'.p.upStatements ++ ls'.p.downStatements, linesOkStr s := by
  induction lines generalizing ls with
  | nil =>
    simp only [runLines, Except.ok.injEq] at h
    subst h
    exact hstmts
  | cons a t ih =>
    simp only [runLines] at h
    cases hp : processLine sep ls a with
    | error e =>
      rw [hp] at h
      exact absurd h (by simp)
    | ok mid =>
      rw [hp] at h
      obtain ⟨hb, hs⟩ := processLine_linesOk sep ls mid a (hclean a (by simp)) hp
        hbuf hstmts
      exact ih mid (fun l hl => hclean l (List.mem_cons_of_mem _ hl)) h hb hs

/- ### C10 -/

/-- C10: a line starting with `-- ` but not `-- +` is dropped before any
state handling — the loop iteration returns its state unchanged — and
consequently, for any successfully parsed document (of scanner-produced,
newline-free lines), no line of any output statement, up or down, inside
or outside a statement block, starts with `-- `. -/
theorem C10_comment_lines_dropped (sep : String) (doc : List String)
    (p : ParsedMigration)
    (hclean : ∀ l ∈ doc, lineClean l = true)
    (hok : ParseMigration sep doc = .ok p) :
    (∀ ls line, (hasPref line "-- " && !hasPref line "-- +") = true →
        processLine sep ls line = .ok ls) ∧
    ∀ s ∈ p.upStatements ++ p.downStatements,
      (scanLines s).all (fun l => !hasPref l "-- ") = true := by
  constructor
  · intro ls line hcl
    unfold processLine
    rw [if_pos hcl]
  · obtain ⟨lsEnd, hrun, rfl, -, -⟩ := ParseMigration_ok_elim sep doc p hok
    intro s hs
    have hinv := runLines_linesOk sep doc initLoop lsEnd hclean hrun
      ⟨[], rfl, by simp⟩ (by intro s2 hs2; simp [initLoop] at hs2) s hs
    obtain ⟨bls, rfl, hall⟩ := hinv
    have hcl : ∀ l ∈ bls, lineClean l = true := by
      intro l hl
      have := hall l hl
      rw [cleanNonComment, Bool.and_eq_true] at this
      exact this.2
    rw [scanLines_joinNL bls hcl, List.all_eq_true]
    intro l hl
    have := hall l hl
    rw [cleanNonComment, Bool.and_eq_true] at this
    exact this.1

/-- C10, witness: in the document
`Up; StatementBegin; "A;"; "-- note"; "B;"; StatementEnd` the comment line
inside the block is dropped (the block statement is `"A;\nB;\n"`), and no
output statement line starts with `-- `. -/
theorem C10_witness :
    (∀ ls line, (hasPref line "-- " && !hasPref line "-- +") = true →
        processLine "" ls line = .ok ls) ∧
    ∀ s ∈ (⟨["A;\nB;\n"], []⟩ : ParsedMigration).upStatements ++
        (⟨["A;\nB;\n"], []⟩ : ParsedMigration).downStatements,
      (scanLines s).all (fun l => !hasPref l "-- ") = true :=
  C10_comment_lines_dropped ""
    ["-- +migrate Up", "-- +migrate StatementBegin", "A;", "-- note", "B;",
      "-- +migrate StatementEnd"]
    ⟨["A;\nB;\n"], []⟩ (by decide) rfl

/- ### C8, counterexample -/

/-- C8, counterexample: the single-direction document
`Up; StatementBegin; "A;"; "B;"; StatementEnd` parses to the one-statement
list `["A;\nB;\n"]`; concatenating that list (a single statement, so no
separator is involved) and re-parsing it under Up yields `["A;\n", "B;\n"]`
— two statements — which differs from the original list even after
trimming white space from every entry. -/
theorem C8_counterexample :
    ParseMigration "" ["-- +migrate Up", "-- +migrate StatementBegin", "A;",
        "B;", "-- +migrate StatementEnd"] = .ok ⟨["A;\nB;\n"], []⟩ ∧
    ParseMigration "" ("-- +migrate Up" :: scanLines (strJoin ["A;\nB;\n"])) =
      .ok ⟨["A;\n", "B;\n"], []⟩ ∧
    ¬ (["A;\n", "B;\n"].map goTrimSpace = ["A;\nB;\n"].map goTrimSpace) :=
  ⟨rfl, rfl, by decide⟩

/- ### C8, forward invariant -/

/-- A line starting with `-- ` never passes the semicolon test: its first
word is exactly `--`, at which the scan stops with `prev` still empty. -/
theorem endsWithSemicolon_false_of_dashdash {line : String}
    (h : hasPref line "-- " = true) : endsWithSemicolon line = false := by
  obtain ⟨t, ht⟩ := List.isPrefixOf_iff_prefix.mp h
  have ht' : line.data = '-' :: '-' :: ' ' :: t := by
    rw [← ht]
    rfl
  have h1 : isGoSpace '-' = false := by decide
  have h2 : isGoSpace ' ' = true := by decide
  have hfields : goFields line = String.mk ['-', '-'] :: wordsAux t [] := by
    unfold goFields
    rw [ht']
    simp [wordsAux, h1, h2]
  unfold endsWithSemicolon
  rw [hfields]
  simp only [lastWordBeforeComment, if_pos (show hasPref (String.mk ['-', '-']) "--" = true by decide)]
  decide

/-- When the line is no `StatementBegin` directive, `updateState` keeps
`ignoreSemicolons` and `statementEnded` off once they are off. -/
theorem updateState_flags (line buf : String) (st st' : migrationState)
    (hnb : isStatementBeginLine line = false)
    (h : updateState line buf st = .ok st')
    (hig : st.ignoreSemicolons = false) (hse : st.statementEnded = false) :
    st'.ignoreSemicolons = false ∧ st'.statementEnded = false := by
  unfold updateState at h
  split at h
  · split at h
    · exact absurd h (by simp)
    · rename_i cmd hcmd
      rw [isStatementBeginLine, hcmd] at hnb
      split at h
      · split at h
        · exact absurd h (by simp)
        · rw [Except.ok.injEq] at h
          subst h
          exact ⟨hig, hse⟩
      · split at h
        · split at h
          · exact absurd h (by simp)
          · rw [Except.ok.injEq] at h
            subst h
            exact ⟨hig, hse⟩
        · split at h
          · rename_i hcb
            change (cmd.command == "StatementBegin") = false at hnb
            rw [hcb] at hnb
            exact absurd hnb (by simp)
          · split at h
            · split at h
              · rw [Except.ok.injEq] at h
                subst h
                exact ⟨rfl, hig⟩
              · rw [Except.ok.injEq] at h
                subst h
                exact ⟨hig, hse⟩
            · rw [Except.ok.injEq] at h
              subst h
              exact ⟨hig, hse⟩
  · rw [Except.ok.injEq] at h
    subst h
    exact ⟨hig, hse⟩

/-- With no line separator configured the separator test is always off. -/
theorem isLineSepB_empty (st : migrationState) (line : String) :
    isLineSepB "" st line = false := by
  simp [isLineSepB]

/-- With no separator configured and no `StatementBegin` directives, one
loop iteration keeps the flags off, keeps the buffer well formed, and
flushes only well-formed semicolon-terminated statements. -/
theorem processLine_wf (ls ls' : LoopState) (line : String)
    (hc : lineClean line = true)
    (hnb : isStatementBeginLine line = false)
    (h : processLine "" ls line = .ok ls')
    (hig : ls.st.ignoreSemicolons = false) (hse : ls.st.statementEnded = false)
    (hbuf : wfBuf ls.buf)
    (hstmts : ∀ s ∈ ls.p.upStatements ++ ls.p.downStatements, wfStmt s) :
    (ls'.st.ignoreSemicolons = false ∧ ls'.st.statementEnded = false) ∧
      wfBuf ls'.buf ∧
      ∀ s ∈ ls'.p.upStatements ++ ls'.p.downStatements, wfStmt s := by
  unfold processLine at h
  split at h
  · rw [Except.ok.injEq] at h
    subst h
    exact ⟨⟨hig, hse⟩, hbuf, hstmts⟩
  · rename_i hskip
    have hskip' : (hasPref line "-- " && !hasPref line "-- +") = false := by
      simpa using hskip
    split at h
    · exact absurd h (by simp)
    · rename_i st hupd
      obtain ⟨hig', hse'⟩ := updateState_flags line ls.buf ls.st st hnb hupd hig hse
      split at h
      · rw [Except.ok.injEq] at h
        subst h
        exact ⟨⟨hig', hse'⟩, hbuf, hstmts⟩
      · split at h
        · rename_i hcond
          rw [hig', hse', isLineSepB_empty] at hcond
          have hews : endsWithSemicolon line = true := by
            simpa using hcond
          have hplus : hasPref line "-- +" = false := by
            rcases hb : hasPref line "-- +" with _ | _
            · rfl
            · rw [endsWithSemicolon_false_of_dashdash
                (dashdash_of_dashdashplus hb)] at hews
              exact absurd hews (by simp)
          have hdash : hasPref line "-- " = false := by
            rw [hplus] at hskip'
            simpa using hskip'
          have hbap : bufAfter "" st ls line = ls.buf ++ line ++ "\n" := by
            rw [bufAfter, isLineSepB_empty, hplus]
            simp
          obtain ⟨bls, hbls, hcl, hne⟩ := hbuf
          have hwfnew : wfStmt (bufAfter "" st ls line) := by
            refine ⟨bls ++ [line], ?_, bls, line, rfl, ?_, hne, hews⟩
            · rw [hbap, hbls, joinNL_append]
              simp only [joinNL_cons, joinNL_nil, str_append_assoc,
                str_append_empty]
            · intro l hl
              rcases List.mem_append.mp hl with hl' | hl'
              · exact hcl l hl'
              · rw [List.mem_singleton.mp hl']
                rw [cleanNonComment, Bool.and_eq_true]
                exact ⟨by simp [hdash], hc⟩
          split at h
          · rw [Except.ok.injEq] at h
            subst h
            refine ⟨⟨hig', rfl⟩, ⟨[], rfl, by simp, by simp⟩, ?_⟩
            intro s hs
            simp only at hs
            rcases List.mem_append.mp hs with hs' | hs'
            · rcases List.mem_append.mp hs' with h2 | h2
              · exact hstmts s (List.mem_append.mpr (Or.inl h2))
              · rw [List.mem_singleton.mp h2]
                exact hwfnew
            · exact hstmts s (List.mem_append.mpr (Or.inr hs'))
          · rw [Except.ok.injEq] at h
            subst h
            refine ⟨⟨hig', rfl⟩, ⟨[], rfl, by simp, by simp⟩, ?_⟩
            intro s hs
            simp only at hs
            rcases List.mem_append.mp hs with hs' | hs'
            · exact hstmts s (List.mem_append.mpr (Or.inl hs'))
            · rcases List.mem_append.mp hs' with h2 | h2
              · exact hstmts s (List.mem_append.mpr (Or.inr h2))
              · rw [List.mem_singleton.mp h2]
                exact hwfnew
        · rename_i hcond
          rw [Except.ok.injEq] at h
          subst h
          rw [hig', hse', isLineSepB_empty] at hcond
          have hews : endsWithSemicolon line = false := by
            simpa using hcond
          refine ⟨⟨hig', hse'⟩, ?_, hstmts⟩
          rcases hb : hasPref line "-- +" with _ | _
          · have hdash : hasPref line "-- " = false := by
              rw [hb] at hskip'
              simpa using hskip'
            have hbap : bufAfter "" st ls line = ls.buf ++ line ++ "\n" := by
              rw [bufAfter, isLineSepB_empty, hb]
              simp
            obtain ⟨bls, hbls, hcl, hne⟩ := hbuf
            refine ⟨bls ++ [line], ?_, ?_, ?_⟩
            · rw [hbap, hbls, joinNL_append]
              simp only [joinNL_cons, joinNL_nil, str_append_assoc,
                str_append_empty]
            · intro l hl
              rcases List.mem_append.mp hl with hl' | hl'
              · exact hcl l hl'
              · rw [List.mem_singleton.mp hl']
                rw [cleanNonComment, Bool.and_eq_true]
                exact ⟨by simp [hdash], hc⟩
            · intro l hl
              rcases List.mem_append.mp hl with hl' | hl'
              · exact hne l hl'
              · rw [List.mem_singleton.mp hl']
                exact hews
          · have hbap : bufAfter "" st ls line = ls.buf := by
              rw [bufAfter, hb]
              simp
            rw [hbap]
            exact hbuf

/-- The loop over a block-free document preserves well-formedness of the
buffer and produces only well-formed semicolon-terminated statements. -/
theorem runLines_wf (lines : List String) (ls ls' : LoopState)
    (hclean : ∀ l ∈ lines, lineClean l = true)
    (hnb : ∀ l ∈ lines, isStatementBeginLine l = false)
    (h : runLines "" ls lines = .ok ls')
    (hig : ls.st.ignoreSemicolons = false) (hse : ls.st.statementEnded = false)
    (hbuf : wfBuf ls.buf)
    (hstmts : ∀ s ∈ ls.p.upStatements ++ ls.p.downStatements, wfStmt s) :
    ∀ s ∈ ls'.p.upStatements ++ ls'.p.downStatements, wfStmt s := by
  induction lines generalizing ls with
  | nil =>
    simp only [runLines, Except.ok.injEq] at h
    subst h
    exact hstmts
  | cons a t ih =>
    simp only [runLines] at h
    cases hp : processLine "" ls a with
    | error e =>
      rw [hp] at h
      exact absurd h (by simp)
    | ok mid =>
      rw [hp] at h
      obtain ⟨⟨hig2, hse2⟩, hb2, hs2⟩ := processLine_wf ls mid a
        (hclean a (by simp)) (hnb a (by simp)) hp hig hse hbuf hstmts
      exact ih mid (fun l hl => hclean l (List.mem_cons_of_mem _ hl))
        (fun l hl => hnb l (List.mem_cons_of_mem _ hl)) h hig2 hse2 hb2 hs2

/- ### C8, re-parsing a well-formed statement sequence -/

/-- Outside a block, with no separator configured, a line that does not
start with `-- ` is appended and flushes exactly when it passes the
semicolon test. -/
theorem processLine_simpleLine (p : ParsedMigration) (buf : String)
    (d : migrationDirection) (hd : d ≠ directionNone) (line : String)
    (hdash : hasPref line "-- " = false) :
    processLine "" ⟨p, buf, ⟨false, false, d⟩⟩ line =
      if endsWithSemicolon line then
        .ok ⟨appendStmt d p (buf ++ line ++ "\n"), "", ⟨false, false, d⟩⟩
      else .ok ⟨p, buf ++ line ++ "\n", ⟨false, false, d⟩⟩ := by
  have hsql : hasPref line sqlCmdPrefix = false := by
    rcases hb : hasPref line sqlCmdPrefix with _ | _
    · rfl
    · exact absurd (dashdash_of_sqlCmd hb) (by simp [hdash])
  have hplus : hasPref line "-- +" = false := by
    rcases hb : hasPref line "-- +" with _ | _
    · rfl
    · exact absurd (dashdash_of_dashdashplus hb) (by simp [hdash])
  cases d with
  | directionNone => exact absurd rfl hd
  | directionUp =>
    rcases hews : endsWithSemicolon line with _ | _
    · simp [processLine, updateState, bufAfter, isLineSepB, appendStmt, hdash,
        hsql, hplus, hews]
    · simp [processLine, updateState, bufAfter, isLineSepB, appendStmt, hdash,
        hsql, hplus, hews]
  | directionDown =>
    rcases hews : endsWithSemicolon line with _ | _
    · simp [processLine, updateState, bufAfter, isLineSepB, appendStmt, hdash,
        hsql, hplus, hews]
    · simp [processLine, updateState, bufAfter, isLineSepB, appendStmt, hdash,
        hsql, hplus, hews]

/-- Re-parsing one well-formed statement: the non-terminal lines accumulate,
the terminal line flushes the whole statement. -/
theorem runLines_oneWfStmt (init2 : List String) (lst : String)
    (p : ParsedMigration) (buf : String) (d : migrationDirection)
    (hd : d ≠ directionNone)
    (hinit : ∀ l ∈ init2, hasPref l "-- " = false ∧ endsWithSemicolon l = false)
    (hlst1 : hasPref lst "-- " = false) (hlst2 : endsWithSemicolon lst = true) :
    runLines "" ⟨p, buf, ⟨false, false, d⟩⟩ (init2 ++ [lst]) =
      .ok ⟨appendStmt d p (buf ++ joinNL (init2 ++ [lst])), "",
        ⟨false, false, d⟩⟩ := by
  induction init2 generalizing buf with
  | nil =>
    simp only [List.nil_append, runLines,
      processLine_simpleLine p buf d hd lst hlst1, hlst2, if_pos]
    simp only [joinNL_cons, joinNL_nil, str_append_assoc, str_append_empty]
  | cons x t ih =>
    obtain ⟨hx1, hx2⟩ := hinit x (by simp)
    simp only [List.cons_append, runLines,
      processLine_simpleLine p buf d hd x hx1, hx2, Bool.false_eq_true, if_false,
      List.append_eq]
    rw [ih (buf ++ x ++ "\n") (fun l hl => hinit l (List.mem_cons_of_mem _ hl))]
    simp only [joinNL_cons, str_append_assoc]

/-- Reducing the split of the loop at an `ok` intermediate state. -/
theorem runLines_match_ok (sep : String) (ls : LoopState) (l2 : List String) :
    (match (Except.ok ls : Except ParseError LoopState) with
      | .error e => .error e
      | .ok ls' => runLines sep ls' l2) = runLines sep ls l2 := rfl

theorem appendStmt_appendStmts (d : migrationDirection) (p : ParsedMigration)
    (s : String) (L : List String) :
    appendStmts d (appendStmt d p s) L = appendStmts d p (s :: L) := by
  cases d <;> simp [appendStmt, appendStmts]

/-- Re-parsing a sequence of well-formed statements appends exactly those
statements, in order, to the active direction's list. -/
theorem runLines_stmtSeq (bss : List (List String)) (p : ParsedMigration)
    (d : migrationDirection) (hd : d ≠ directionNone)
    (hwf : ∀ bls ∈ bss, wfLines bls) :
    runLines "" ⟨p, "", ⟨false, false, d⟩⟩ bss.flatten =
      .ok ⟨appendStmts d p (bss.map joinNL), "", ⟨false, false, d⟩⟩ := by
  induction bss generalizing p with
  | nil =>
    cases d with
    | directionNone => exact absurd rfl hd
    | directionUp => simp [runLines, appendStmts]
    | directionDown => simp [runLines, appendStmts]
  | cons bls t ih =>
    obtain ⟨init2, lst, hb, hcl, hne, hews⟩ := hwf bls (by simp)
    have hinit : ∀ l ∈ init2, hasPref l "-- " = false ∧
        endsWithSemicolon l = false := by
      intro l hl
      have hc := hcl l (by rw [hb]; exact List.mem_append.mpr (Or.inl hl))
      rw [cleanNonComment, Bool.and_eq_true] at hc
      exact ⟨by simpa using hc.1, hne l hl⟩
    have hlst1 : hasPref lst "-- " = false := by
      have hc := hcl lst (by rw [hb]; exact List.mem_append.mpr (Or.inr (by simp)))
      rw [cleanNonComment, Bool.and_eq_true] at hc
      simpa using hc.1
    rw [List.flatten_cons, runLines_append, hb,
      runLines_oneWfStmt init2 lst p "" d hd hinit hlst1 hews]
    rw [str_empty_append, runLines_match_ok]
    rw [ih (appendStmt d p (joinNL (init2 ++ [lst])))
      (fun b hbm => hwf b (List.mem_cons_of_mem _ hbm))]
    rw [appendStmt_appendStmts]
    rw [List.map_cons]

/-- Every list of well-formed statements is the image under `joinNL` of a
list of well-formed line lists. -/
theorem exists_wfLines (L : List String) (h : ∀ s ∈ L, wfStmt s) :
    ∃ bss : List (List String), L = bss.map joinNL ∧ ∀ bls ∈ bss, wfLines bls := by
  induction L with
  | nil => exact ⟨[], rfl, by simp⟩
  | cons s t ih =>
    obtain ⟨bls, hs, hw⟩ := h s (by simp)
    obtain ⟨bss, ht, hall⟩ := ih (fun x hx => h x (List.mem_cons_of_mem _ hx))
    refine ⟨bls :: bss, by rw [List.map_cons, ← hs, ← ht], ?_⟩
    intro b hb
    rcases List.mem_cons.mp hb with rfl | hb'
    · exact hw
    · exact hall b hb'

/-- Concatenating the statements equals joining all their lines. -/
theorem strJoin_map_joinNL (bss : List (List String)) :
    strJoin (bss.map joinNL) = joinNL bss.flatten := by
  induction bss with
  | nil => rfl
  | cons b t ih =>
    rw [List.map_cons, List.flatten_cons, joinNL_append, ← ih]
    rfl

/- ### C8 -/

/-- C8, amended: for every document with no `StatementBegin` directive (and
no line separator configured) that parses successfully, concatenating
either direction's statement list — each statement already carries its `;`
terminator, which acts as the separator — and re-parsing it under the same
direction yields exactly the same statement list. -/
theorem C8_round_trip (doc : List String) (p : ParsedMigration)
    (hclean : ∀ l ∈ doc, lineClean l = true)
    (hnb : ∀ l ∈ doc, isStatementBeginLine l = false)
    (hok : ParseMigration "" doc = .ok p) :
    ParseMigration "" ("-- +migrate Up" :: scanLines (strJoin p.upStatements)) =
      .ok ⟨p.upStatements, []⟩ ∧
    ParseMigration "" ("-- +migrate Down" :: scanLines (strJoin p.downStatements)) =
      .ok ⟨[], p.downStatements⟩ := by
  obtain ⟨lsEnd, hrun, rfl, -, -⟩ := ParseMigration_ok_elim "" doc _ hok
  have hwf := runLines_wf doc initLoop lsEnd hclean hnb hrun rfl rfl
    ⟨[], rfl, by simp, by simp⟩ (by intro s hs; simp [initLoop] at hs)
  have hhdrU : processLine "" initLoop "-- +migrate Up" =
      .ok ⟨⟨[], []⟩, "", ⟨false, false, directionUp⟩⟩ := rfl
  have hhdrD : processLine "" initLoop "-- +migrate Down" =
      .ok ⟨⟨[], []⟩, "", ⟨false, false, directionDown⟩⟩ := rfl
  constructor
  · obtain ⟨bss, hL, hbss⟩ := exists_wfLines lsEnd.p.upStatements
      (fun s hs => hwf s (List.mem_append.mpr (Or.inl hs)))
    have hclean2 : ∀ l ∈ bss.flatten, lineClean l = true := by
      intro l hl
      rw [List.mem_flatten] at hl
      obtain ⟨b, hb1, hb2⟩ := hl
      obtain ⟨i2, lst, hbe, hcl, -, -⟩ := hbss b hb1
      have := hcl l hb2
      rw [cleanNonComment, Bool.and_eq_true] at this
      exact this.2
    have hscan : scanLines (strJoin lsEnd.p.upStatements) = bss.flatten := by
      rw [hL, strJoin_map_joinNL, scanLines_joinNL _ hclean2]
    rw [hscan]
    unfold ParseMigration
    simp only [runLines, hhdrU]
    rw [runLines_stmtSeq bss ⟨[], []⟩ directionUp (by simp) hbss, ← hL]
    rfl
  · obtain ⟨bss, hL, hbss⟩ := exists_wfLines lsEnd.p.downStatements
      (fun s hs => hwf s (List.mem_append.mpr (Or.inr hs)))
    have hclean2 : ∀ l ∈ bss.flatten, lineClean l = true := by
      intro l hl
      rw [List.mem_flatten] at hl
      obtain ⟨b, hb1, hb2⟩ := hl
      obtain ⟨i2, lst, hbe, hcl, -, -⟩ := hbss b hb1
      have := hcl l hb2
      rw [cleanNonComment, Bool.and_eq_true] at this
      exact this.2
    have hscan : scanLines (strJoin lsEnd.p.downStatements) = bss.flatten := by
      rw [hL, strJoin_map_joinNL, scanLines_joinNL _ hclean2]
    rw [hscan]
    unfold ParseMigration
    simp only [runLines, hhdrD]
    rw [runLines_stmtSeq bss ⟨[], []⟩ directionDown (by simp) hbss, ← hL]
    rfl

/-- C8, witness for the amended round trip: the block-free document
`Up; "A;"; "B;"; Down; "C;"` parses to up `["A;\n", "B;\n"]` and down
`["C;\n"]`, and both lists re-parse to themselves. -/
theorem C8_witness :
    ParseMigration "" ("-- +migrate Up" ::
        scanLines (strJoin (⟨["A;\n", "B;\n"], ["C;\n"]⟩ :
          ParsedMigration).upStatements)) =
      .ok ⟨(⟨["A;\n", "B;\n"], ["C;\n"]⟩ : ParsedMigration).upStatements, []⟩ ∧
    ParseMigration "" ("-- +migrate Down" ::
        scanLines (strJoin (⟨["A;\n", "B;\n"], ["C;\n"]⟩ :
          ParsedMigration).downStatements)) =
      .ok ⟨[], (⟨["A;\n", "B;\n"], ["C;\n"]⟩ : ParsedMigration).downStatements⟩ :=
  C8_round_trip ["-- +migrate Up", "A;", "B;", "-- +migrate Down", "C;"]
    ⟨["A;\n", "B;\n"], ["C;\n"]⟩ (by decide) (by decide) rfl
